import Mathlib

/-
Verification of the mping ping-engine core against its specification.

The Rust sources are shallowly embedded: machine integers become `ℕ`
(with explicit `% 2 ^ w` where overflow can actually occur), `f64`
arithmetic on latency samples becomes exact `ℚ` arithmetic (the spec's
claims are about the algorithm, not rounding), `std::time::Duration`
becomes a nanosecond count `ℕ`, and fallible Rust functions returning
`Result<_, String>` become `Except String _`.
-/

namespace MPing

/-! ## LatencyWindow (src/latencywin.rs)

Rolling-window statistics over the last `cap` latency samples, with two
monotonic deques for O(1) min/max.  Deques are embedded as lists with the
front at the list head; `pop_back`-style loops become `popBackWhile`.

The struct's `stdev` field (`√variance`) is irrational in general and is
not representable in the exact-rational embedding; no claim reads it, so
it is omitted from the state (its square is the `variance` field).
Similarly `stdev_n` below returns the sample variance, i.e. the square of
the value the Rust function returns; the final `sqrt` is a monotone
bijection on nonnegative values and does not affect any error branch.

The `index` field is a `usize` incremented with `wrapping_add(1)`; both
the source and the spec note that wrapping is acceptable because it is
used only for age comparisons within `cap` of the newest index.  It is
embedded as an unbounded `ℕ`.
-/

/-- Drop the longest suffix of `l` all of whose elements satisfy `p`
(the `while let Some(..) = q.back() ... pop_back()` loops). -/
def popBackWhile (p : α → Bool) (l : List α) : List α :=
  (l.reverse.dropWhile p).reverse

def MIN_WINDOW_SIZE : ℕ := 3

structure LatencyWindow where
  cap : ℕ
  /-- ring buffer of values (length `cap`) -/
  buf : List ℕ
  /-- next write position -/
  head : ℕ
  len : ℕ
  /-- running sum -/
  sum : ℚ
  /-- running sum of squares -/
  sum_sq : ℚ
  /-- running population variance (M2 / N) -/
  variance : ℚ
  /-- monotonic increasing (value, index) -/
  minq : List (ℕ × ℕ)
  /-- monotonic decreasing (value, index) -/
  maxq : List (ℕ × ℕ)
  /-- monotonically increasing sample index -/
  index : ℕ
deriving Repr, DecidableEq

/-- `LatencyWindow::new(cap)`: capacity clamped to 3 minimum. -/
def LatencyWindow.new (cap : ℕ) : LatencyWindow :=
  { cap := max cap MIN_WINDOW_SIZE
    buf := List.replicate (max cap MIN_WINDOW_SIZE) 0
    head := 0
    len := 0
    sum := 0
    sum_sq := 0
    variance := 0
    minq := []
    maxq := []
    index := 0 }

/-- `LatencyWindow::push(val)`: append a value, evicting the oldest if full. -/
def LatencyWindow.push (w : LatencyWindow) (val : ℕ) : LatencyWindow :=
  let idx := w.index
  let valf : ℚ := val
  -- grow, or evict the oldest at `head`
  let w₁ : LatencyWindow :=
    if w.len < w.cap then
      { w with buf := w.buf.set w.head val, head := (w.head + 1) % w.cap
               len := w.len + 1, sum := w.sum + valf
               sum_sq := w.sum_sq + valf * valf, index := w.index + 1 }
    else
      let old : ℚ := w.buf.getD w.head 0
      { w with buf := w.buf.set w.head val, head := (w.head + 1) % w.cap
               sum := w.sum + valf - old
               sum_sq := w.sum_sq + valf * valf - old * old, index := w.index + 1 }
  -- compute population variance (guarding the negative-rounding case)
  let w₂ : LatencyWindow :=
    if 1 < w₁.len then
      let lenf : ℚ := w₁.len
      let v := (w₁.sum_sq - w₁.sum * w₁.sum / lenf) / lenf
      { w₁ with variance := if v < 0 then 0 else v }
    else w₁
  -- drop aged-out heads before adding the new sample
  let cutoff := idx - (w.cap - 1)
  let minq₁ := w₂.minq.dropWhile (fun p => decide (p.2 < cutoff))
  let maxq₁ := w₂.maxq.dropWhile (fun p => decide (p.2 < cutoff))
  -- min deque: pop larger tails; max deque: pop smaller tails
  let minq₂ := popBackWhile (fun p => decide (val < p.1)) minq₁ ++ [(val, idx)]
  let maxq₂ := popBackWhile (fun p => decide (p.1 < val)) maxq₁ ++ [(val, idx)]
  { w₂ with minq := minq₂, maxq := maxq₂ }

def LatencyWindow.is_empty (w : LatencyWindow) : Bool :=
  w.len == 0

def LatencyWindow.no_samples_check (w : LatencyWindow) : Except String Unit :=
  if w.is_empty then .error "no samples" else .ok ()

/-- `float_val_check`: in the source this rejects NaN and infinite `f64`
values; in the exact-rational embedding neither can arise, so the check
always succeeds. -/
def LatencyWindow.float_val_check (_w : LatencyWindow) (_val : ℚ) : Except String Unit :=
  .ok ()

/-- `LatencyWindow::last()`: latest latency sample. -/
def LatencyWindow.last (w : LatencyWindow) : Except String ℕ :=
  match w.no_samples_check with
  | .error e => .error e
  | .ok _ => .ok (w.buf.getD ((w.head + w.cap - 1) % w.cap) 0)

/-- `LatencyWindow::stdev_n(n)`, up to the final square root: the sample
variance (Bessel, divisor `n - 1`) over the last `n` samples, scanning
backwards through the ring. -/
def LatencyWindow.stdev_n (w : LatencyWindow) (n : ℕ) : Except String ℚ :=
  match w.no_samples_check with
  | .error e => .error e
  | .ok _ =>
    if n = 1 then .ok 0
    else if n < 1 ∨ w.len < n then .error "invalid sample count"
    else
      let sub_sum : ℚ :=
        ((List.range n).map
          (fun i => (w.buf.getD ((w.head + w.cap - 1 - i) % w.cap) 0 : ℚ))).sum
      let sub_mean : ℚ := sub_sum / (n : ℚ)
      let var : ℚ :=
        ((List.range n).map
          (fun i => ((w.buf.getD ((w.head + w.cap - 1 - i) % w.cap) 0 : ℚ) - sub_mean) ^ 2)).sum
          / ((n : ℚ) - 1)
      match w.float_val_check var with
      | .error e => .error e
      | .ok _ => .ok var

/-- `LatencyWindow::mean_min_max()`: `(sum / len, minq.front, maxq.front)`. -/
def LatencyWindow.mean_min_max (w : LatencyWindow) : Except String (ℚ × ℕ × ℕ) :=
  match w.no_samples_check with
  | .error e => .error e
  | .ok _ =>
    .ok (w.sum / (w.len : ℚ),
         (w.minq.head?.map Prod.fst).getD 0,
         (w.maxq.head?.map Prod.fst).getD 0)

/-- Modelled from the spec: `LatencyWindow::mean()` is called by
`PingTargetInner::is_laggy` in structs.rs but is absent from the vendored
latencywin.rs; per the spec the window mean is `sum / len` (the first
component of `mean_min_max`), failing on an empty window like every other
accessor. -/
def LatencyWindow.mean (w : LatencyWindow) : Except String ℚ :=
  match w.no_samples_check with
  | .error e => .error e
  | .ok _ => .ok (w.sum / (w.len : ℚ))

/-- Push a whole sequence of samples, oldest first. -/
def LatencyWindow.pushAll (w : LatencyWindow) (vs : List ℕ) : LatencyWindow :=
  vs.foldl LatencyWindow.push w

/-! ### Reference (naive) aggregates used to state the claims -/

/-- The live window: the at-most-last-`cap` pushed values. -/
def liveWindow (cap : ℕ) (vs : List ℕ) : List ℕ :=
  vs.drop (vs.length - cap)

/-- Minimum of a list (0 for the empty list). -/
def minOf (l : List ℕ) : ℕ :=
  match l with
  | [] => 0
  | x :: xs => xs.foldl min x

/-- Maximum of a list (0 for the empty list). -/
def maxOf (l : List ℕ) : ℕ :=
  match l with
  | [] => 0
  | x :: xs => xs.foldl max x

/-- Sum of a list of naturals as a rational. -/
def qsum (l : List ℕ) : ℚ :=
  (l.map (fun v => (Nat.cast v : ℚ))).sum

/-- Naive sample variance (Bessel, divisor `n - 1`) of a list. -/
def sampleVar (l : List ℕ) : ℚ :=
  let m : ℚ := qsum l / (l.length : ℚ)
  ((l.map (fun v => (Nat.cast v - m) ^ 2)).sum) / ((l.length : ℚ) - 1)

/-- Sum of squares of a list of naturals as a rational (matching the
`val_f * val_f` accumulation in `push`). -/
def qsumsq (l : List ℕ) : ℚ :=
  (l.map (fun v => (Nat.cast v : ℚ) * Nat.cast v)).sum

/-- Invariant of the min-deque after pushing the samples `vs` into a
window of capacity `cap`: entries are (value, index) pairs with strictly
increasing live indices, each carrying the pushed value at its index,
each a suffix-minimum of the pushed sequence, and every live
suffix-minimum position is present.  The deque front is then the window
minimum. -/
structure MinqInv (vs : List ℕ) (cap : ℕ) (q : List (ℕ × ℕ)) : Prop where
  sorted : q.Pairwise (fun a b => a.2 < b.2)
  lower : ∀ p ∈ q, vs.length - cap ≤ p.2
  upper : ∀ p ∈ q, p.2 < vs.length
  value : ∀ p ∈ q, p.1 = vs.getD p.2 0
  suffmin : ∀ p ∈ q, ∀ j, p.2 < j → j < vs.length → p.1 ≤ vs.getD j 0
  complete : ∀ i, vs.length - cap ≤ i → i < vs.length →
    (∀ j, i < j → j < vs.length → vs.getD i 0 ≤ vs.getD j 0) → (vs.getD i 0, i) ∈ q

/-- Dual invariant of the max-deque: entries are suffix-maxima. -/
structure MaxqInv (vs : List ℕ) (cap : ℕ) (q : List (ℕ × ℕ)) : Prop where
  sorted : q.Pairwise (fun a b => a.2 < b.2)
  lower : ∀ p ∈ q, vs.length - cap ≤ p.2
  upper : ∀ p ∈ q, p.2 < vs.length
  value : ∀ p ∈ q, p.1 = vs.getD p.2 0
  suffmax : ∀ p ∈ q, ∀ j, p.2 < j → j < vs.length → vs.getD j 0 ≤ p.1
  complete : ∀ i, vs.length - cap ≤ i → i < vs.length →
    (∀ j, i < j → j < vs.length → vs.getD j 0 ≤ vs.getD i 0) → (vs.getD i 0, i) ∈ q

/-- Full state invariant of a `LatencyWindow` built by pushing `vs` into
`LatencyWindow.new cap₀`. -/
def WinInv (cap₀ : ℕ) (vs : List ℕ) (w : LatencyWindow) : Prop :=
  w.cap = max cap₀ 3 ∧
  w.index = vs.length ∧
  w.len = min vs.length (max cap₀ 3) ∧
  w.head = vs.length % max cap₀ 3 ∧
  w.buf.length = max cap₀ 3 ∧
  (∀ i, vs.length - max cap₀ 3 ≤ i → i < vs.length →
    w.buf.getD (i % max cap₀ 3) 0 = vs.getD i 0) ∧
  w.sum = qsum (liveWindow (max cap₀ 3) vs) ∧
  w.sum_sq = qsumsq (liveWindow (max cap₀ 3) vs) ∧
  MinqInv vs (max cap₀ 3) w.minq ∧
  MaxqInv vs (max cap₀ 3) w.maxq

/-! ## Packet records and history (src/structs.rs)

Timestamps (`Instant`) and durations are nanosecond counts.  `VecDeque`
becomes a list with the front (oldest record) at the head.
-/

structure PacketRecord where
  seq : ℕ
  /-- send timestamp (`Instant`, nanoseconds) -/
  sent : ℕ
  /-- round-trip time if a response was received (`Option<Duration>`, nanoseconds) -/
  rtt : Option ℕ
deriving Repr, DecidableEq

/-- `PacketRecord::has_response()` -/
def PacketRecord.has_response (r : PacketRecord) : Bool :=
  r.rtt.isSome

/-- `PacketRecord::set_rtt(rtt)` -/
def PacketRecord.set_rtt (r : PacketRecord) (rtt : ℕ) : PacketRecord :=
  { r with rtt := some rtt }

structure PacketHistory where
  capacity : ℕ
  records : List PacketRecord
deriving Repr, DecidableEq

def PacketHistory.new (capacity : ℕ) : PacketHistory :=
  { capacity := capacity, records := [] }

/-- `PacketHistory::push(record)`: evict the oldest when at capacity. -/
def PacketHistory.push (h : PacketHistory) (record : PacketRecord) : PacketHistory :=
  if h.records.length = h.capacity then
    { h with records := h.records.drop 1 ++ [record] }
  else
    { h with records := h.records ++ [record] }

def PacketHistory.len (h : PacketHistory) : ℕ :=
  h.records.length

/-- `PacketHistory::recent_losses(n)`: packets without response among the
last `n` records (scanning from the newest). -/
def PacketHistory.recent_losses (h : PacketHistory) (n : ℕ) : ℕ :=
  ((h.records.reverse.take n).filter (fun r => !r.has_response)).length

/-- Count of adjacent differing pairs (the `tuple_windows` /
`filter (a, b), a != b` combination). -/
def countFlips : List Bool → ℕ
  | a :: b :: t => (if a ≠ b then 1 else 0) + countFlips (b :: t)
  | _ => 0

/-- `PacketHistory::recent_transitions(n)`: transitions between responding
and not responding in the last `n` records. -/
def PacketHistory.recent_transitions (h : PacketHistory) (n : ℕ) : ℕ :=
  countFlips ((h.records.reverse.take n).map (fun r => r.has_response))

/-- `PacketHistory::mean(n)`: mean RTT over the whole history, or over the
last `n` records.  `Duration` division by a count truncates at nanosecond
granularity, which is exactly `ℕ` division of the summed nanoseconds. -/
def PacketHistory.mean (h : PacketHistory) (n : Option ℕ) : Except String ℕ :=
  if h.records.isEmpty then .error "No records to calculate mean RTT"
  else if (match n with | some s => decide (h.records.length < s) | none => false) then
    .error "Window size exceeds history length"
  else
    let rtts : List ℕ :=
      match n with
      | none => h.records.filterMap (fun r => r.rtt)
      | some ws => (h.records.reverse.take ws).filterMap (fun r => r.rtt)
    if rtts.isEmpty then .error "No valid RTTs to calculate mean"
    else .ok (rtts.sum / rtts.length)

/-! ### Reference (spec-side) mean used by claim C7

The claim describes the mean as the average over the RTT-bearing records
among the last `n` records (taken in send order); the source scans the
reversed history instead.
-/

/-- The last `n` records of a history, in send order (all of them for
`none`). -/
def lastRecords (h : PacketHistory) (n : Option ℕ) : List PacketRecord :=
  match n with
  | none => h.records
  | some k => h.records.drop (h.records.length - k)

/-- Spec-side mean: average (truncated nanosecond division) of the RTTs
carried by the considered records; errors on an empty history, on a window
larger than the history, and when no considered record carries an RTT. -/
def specMean (h : PacketHistory) (n : Option ℕ) : Except String ℕ :=
  if h.records = [] then .error "No records to calculate mean RTT"
  else if (match n with | some s => decide (h.records.length < s) | none => false) then
    .error "Window size exceeds history length"
  else
    let rtts : List ℕ := (lastRecords h n).filterMap (fun r => r.rtt)
    if rtts = [] then .error "No valid RTTs to calculate mean"
    else .ok (rtts.sum / rtts.length)

/-! ## Ping status and per-target state (src/structs.rs, src/main.rs)

The vendored structs.rs predates main.rs: main.rs references
`PingStatus::Paused` and the target's paused flag (`tgt.is_paused()`),
which the stale enum lacks.  The `paused` variant and the paused flag are
modelled from the spec ("status: PingStatus ∈ {None, Ok, Timeout,
NotReachable, Error(msg), Lossy, Laggy, Flappy, Paused}"; "paused: atomic
bool readable without the lock").  `SurgeError` is summarized by the two
cases main.rs distinguishes.
-/

inductive PingStatus where
  | ok
  | timeout
  | notReachable
  | error (msg : String)
  | laggy
  | lossy
  | flappy
  | none
  /-- Modelled from the spec: the `Paused` variant used by main.rs but
  missing from the stale vendored enum. -/
  | paused
deriving Repr, DecidableEq

inductive SurgeError where
  | timeout
  | other (msg : String)
deriving Repr, DecidableEq

structure PingTargetInner where
  sent : ℕ
  recv : ℕ
  /-- RTTs in microseconds (rolling window) -/
  rtts : LatencyWindow
  /-- detailed history of recent sent/received packets -/
  recent : PacketHistory
  status : PingStatus
deriving Repr, DecidableEq

/-- `PingTargetInner::is_lossy(n, threshold)` -/
def PingTargetInner.is_lossy (s : PingTargetInner) (n : ℕ) (threshold : ℚ) : Bool :=
  decide (threshold ≤ (s.recent.recent_losses n : ℚ) / (n : ℚ))

/-- `PingTargetInner::is_flappy(n, threshold)` -/
def PingTargetInner.is_flappy (s : PingTargetInner) (n : ℕ) (threshold : ℕ) : Bool :=
  decide (threshold ≤ s.recent.recent_transitions n)

/-- `PingTargetInner::is_laggy(n, threshold)`: recent mean (as whole
microseconds, `Duration::as_micros`) strictly above the rolling-window
mean times `threshold`; a failing rolling mean is replaced by 0. -/
def PingTargetInner.is_laggy (s : PingTargetInner) (n : ℕ) (threshold : ℚ) :
    Except String Bool :=
  let long_mean : ℚ := (s.rtts.mean.toOption).getD 0
  match s.recent.mean (some n) with
  | .error e => .error e
  | .ok recent_mean => .ok (decide (long_mean * threshold < ((recent_mean / 1000 : ℕ) : ℚ)))

/-- The timeout arm of `update_ping_stats` (main.rs lines 65-71). -/
def timeout_status (sent recv : ℕ) : PingStatus :=
  if 10 < sent ∧ recv = 0 then .notReachable else .timeout

/-- `update_ping_stats(tgt, res, rec)` (main.rs lines 50-95).  The target's
paused flag is passed explicitly; the ping result carries the measured
RTT in nanoseconds (`Duration`), pushed into the window as whole
microseconds truncated to u32 (`dur.as_micros() as u32`). -/
def update_ping_stats (paused : Bool) (s : PingTargetInner)
    (res : Except SurgeError ℕ) (rec : PacketRecord) : PingTargetInner :=
  let step₁ : PingTargetInner × PacketRecord :=
    match res with
    | .ok dur =>
      ({ s with recv := s.recv + 1
                rtts := s.rtts.push ((dur / 1000) % 2 ^ 32)
                status := PingStatus.ok },
       rec.set_rtt dur)
    | .error e =>
      ({ s with status :=
          match e with
          | SurgeError.timeout => timeout_status s.sent s.recv
          | SurgeError.other msg => PingStatus.error msg }, rec)
  let s₂ : PingTargetInner := { step₁.1 with recent := step₁.1.recent.push step₁.2 }
  -- the overriding paused status
  let s₃ : PingTargetInner :=
    if paused = true ∧ ¬s₂.status = PingStatus.paused then
      { s₂ with status := PingStatus.paused }
    else s₂
  -- classifier cascade, only from Ok or Timeout
  if s₃.status = PingStatus.ok ∨ s₃.status = PingStatus.timeout then
    if s₃.is_flappy 10 5 then { s₃ with status := PingStatus.flappy }
    else if s₃.is_lossy 5 (1 / 2) then { s₃ with status := PingStatus.lossy }
    else if ((s₃.is_laggy 10 2).toOption).getD false then { s₃ with status := PingStatus.laggy }
    else s₃
  else s₃

/-- The laggy condition as claim C4 states it: the mean (in whole
microseconds, as `Duration::as_micros` truncates) of the RTTs among the
last 10 recent records strictly exceeds twice the rolling-window mean
(0 when the rolling window is empty); a failing mean computation counts
as the condition not holding. -/
def laggy_spec (u : PingTargetInner) : Bool :=
  ((u.recent.mean (some 10)).toOption.map
    (fun recent_mean =>
      decide (((u.rtts.mean.toOption).getD 0) * 2 < ((recent_mean / 1000 : ℕ) : ℚ)))).getD
    false

/-- The classifier cascade as claim C4 states it, evaluated on the updated
target state `u` (history and window already pushed): Flappy first, then
Lossy, then Laggy; falling through keeps the pre-classifier status `m`. -/
def cascade_spec (u : PingTargetInner) (m : PingStatus) : PingStatus :=
  if 5 ≤ u.recent.recent_transitions 10 then PingStatus.flappy
  else if (1 / 2 : ℚ) ≤ (u.recent.recent_losses 5 : ℚ) / 5 then PingStatus.lossy
  else if laggy_spec u then PingStatus.laggy
  else m

/-! ## The per-target send/receive counter system (src/main.rs)

`ping_loop` increments `sent` under the target lock before dispatching the
send task (lines 127-141); `update_ping_stats` increments `recv` only when
a previously dispatched send completes with a reply (lines 55-62).  The
interleaving of those two steps for one target is the transition system
below; `inflight` counts dispatched sends whose result has not yet been
applied.
-/

structure TargetCounters where
  sent : ℕ
  recv : ℕ
  inflight : ℕ
deriving Repr, DecidableEq

inductive PingStep : TargetCounters → TargetCounters → Prop where
  /-- the ping-loop send step: `sent` incremented before dispatch -/
  | send (c : TargetCounters) :
      PingStep c ⟨c.sent + 1, c.recv, c.inflight + 1⟩
  /-- a dispatched send completes with a reply: `recv` incremented -/
  | reply (c : TargetCounters) (h : 0 < c.inflight) :
      PingStep c ⟨c.sent, c.recv + 1, c.inflight - 1⟩
  /-- a dispatched send completes with a timeout or error: `recv` unchanged -/
  | fail (c : TargetCounters) (h : 0 < c.inflight) :
      PingStep c ⟨c.sent, c.recv, c.inflight - 1⟩

inductive PingReachable : TargetCounters → Prop where
  | init : PingReachable ⟨0, 0, 0⟩
  | step {a b : TargetCounters} : PingReachable a → PingStep a b → PingReachable b

/-! ## Stats snapshot loss formatting (src/structs.rs lines 579-598) -/

structure StatsSnapshot where
  sent : ℕ
  recv : ℕ
deriving Repr, DecidableEq

/-- `StatsSnapshot::loss()`: `(sent - recv) / sent` (both counters cast to
`f64`), 0 when nothing was sent.  Exact under the hypothesis `recv ≤ sent`
(the u64 subtraction cannot wrap). -/
def StatsSnapshot.loss (s : StatsSnapshot) : ℚ :=
  if s.sent = 0 then 0
  else ((s.sent - s.recv : ℕ) : ℚ) / (s.sent : ℚ)

/-- Render a rational percentage with one decimal digit, the
`format ("%.1f%")` idealization: round half away from zero at the tenths
digit (Rust rounds the decimal expansion of the exact `f64`; for the
arguments ever produced by `loss` the two agree away from ties). -/
def fmtPercent1 (q : ℚ) : String :=
  let tenths : ℤ := ⌊q * 10 + 1 / 2⌋
  toString (tenths / 10) ++ "." ++ toString (tenths % 10) ++ "%"

/-- `StatsSnapshot::loss_str()` -/
def StatsSnapshot.loss_str (s : StatsSnapshot) : String :=
  if s.sent = 0 then "-"
  else if s.sent - s.recv = 1 then "0.0%"
  else fmtPercent1 (100 * s.loss)

/-! ## Interval and timeout clamping (src/args.rs lines 185-213)

Durations in nanoseconds. -/

def clamp_interval (d : ℕ) : ℕ :=
  if d < 10000000 then 10000000
  else if 10000000000 < d then 10000000000
  else d

def clamp_timeout (d : ℕ) : ℕ :=
  if d < 10000000 then 10000000
  else if 5000000000 < d then 5000000000
  else d

/-- The tail of `MpConfig::parse`: clamp the interval to [10ms, 10s], the
timeout to [10ms, 5s], then cap the timeout at `interval * 4`. -/
def apply_timing_clamps (interval timeout : ℕ) : ℕ × ℕ :=
  let i := clamp_interval interval
  let t := clamp_timeout timeout
  let limit := i * 4
  (i, if limit < t then limit else t)

/-! ## IP range generation (src/ip_addresses.rs lines 106-144)

Addresses are their integer values (u32 for IPv4, u128 for IPv6).  The
IPv4 count `(end_num - start_num + 1)` is computed in u32 and therefore
wraps at `2 ^ 32` (release overflow semantics; debug builds panic on the
same input); the IPv6 count uses saturating arithmetic. -/

inductive IpAddr where
  | v4 (n : ℕ)
  | v6 (n : ℕ)
deriving Repr, DecidableEq

/-- `generate_ip_range(start, end)`: all addresses between start and end
inclusive. -/
def generate_ip_range (start stop : IpAddr) : Except String (List IpAddr) :=
  match start, stop with
  | .v4 s, .v4 e =>
    if e < s then .error "Start IP is greater than end IP"
    else
      let count := (e - s + 1) % 2 ^ 32
      if 65536 < count then .error "Range too large (max 65536)"
      else .ok ((List.range (e - s + 1)).map (fun k => IpAddr.v4 (s + k)))
  | .v6 s, .v6 e =>
    if e < s then .error "Start IP is greater than end IP"
    else
      let count := min (e - s + 1) (2 ^ 128 - 1)
      if 65536 < count then .error "Range too large (max 65536)"
      else .ok ((List.range (e - s + 1)).map (fun k => IpAddr.v6 (s + k)))
  | _, _ => .error "IP version mismatch in range"

/-! ## Theorems -/

/-- In every reachable counter state, the number of applied results never
exceeds the number of dispatched sends. -/
theorem pingReachable_inflight (c : TargetCounters) (h : PingReachable c) :
    c.recv + c.inflight ≤ c.sent := by
  induction h with
  | init => simp
  | step _ hs ih =>
    cases hs <;> dsimp only <;> omega

/-- C2: for every target, starting from (sent, recv) = (0, 0), every state
reachable under interleavings of the ping-loop send step (which increments
`sent` before dispatch) and the `update_ping_stats` completion step (which
increments `recv` only for a reply to a previously dispatched send)
satisfies `recv ≤ sent`. -/
theorem claim_C2 (c : TargetCounters) (h : PingReachable c) : c.recv ≤ c.sent := by
  have := pingReachable_inflight c h
  omega

theorem claim_C2_witness :
    (TargetCounters.mk 1 1 0).recv ≤ (TargetCounters.mk 1 1 0).sent :=
  claim_C2 _ (PingReachable.step
    (PingReachable.step PingReachable.init (PingStep.send ⟨0, 0, 0⟩))
    (PingStep.reply ⟨1, 0, 1⟩ (by decide)))

/-- C6: after configuration parsing, the effective interval lies in
[10 ms, 10 s], the effective timeout lies in [10 ms, 5 s], the timeout
never exceeds four times the interval, and whenever the range-clamped
timeout exceeds `4 × interval` it is reduced to exactly `4 × interval`
(durations in nanoseconds). -/
theorem claim_C6 (interval timeout : ℕ) :
    10000000 ≤ (apply_timing_clamps interval timeout).1 ∧
    (apply_timing_clamps interval timeout).1 ≤ 10000000000 ∧
    10000000 ≤ (apply_timing_clamps interval timeout).2 ∧
    (apply_timing_clamps interval timeout).2 ≤ 5000000000 ∧
    (apply_timing_clamps interval timeout).2 ≤ (apply_timing_clamps interval timeout).1 * 4 ∧
    ((apply_timing_clamps interval timeout).1 * 4 < clamp_timeout timeout →
      (apply_timing_clamps interval timeout).2 = (apply_timing_clamps interval timeout).1 * 4) := by
  unfold apply_timing_clamps clamp_interval clamp_timeout
  dsimp only
  split_ifs <;> omega

theorem claim_C6_witness :
    (apply_timing_clamps 0 5000000000).2 = (apply_timing_clamps 0 5000000000).1 * 4 :=
  (claim_C6 0 5000000000).2.2.2.2.2 (by decide)

/-- C9 (failing input): expanding the full IPv4 range `0.0.0.0` to
`255.255.255.255` does not error even though the expansion has `2 ^ 32`
addresses, far above the documented 65536 cap: the u32 count
`end - start + 1` wraps to 0, so the size check passes. -/
theorem claim_C9 :
    ∃ l, generate_ip_range (IpAddr.v4 0) (IpAddr.v4 (2 ^ 32 - 1)) = .ok l ∧
      l.length = 2 ^ 32 := by
  refine ⟨(List.range (2 ^ 32 - 1 - 0 + 1)).map (fun k => IpAddr.v4 (0 + k)), ?_, ?_⟩
  · unfold generate_ip_range
    norm_num
  · simp only [List.length_map, List.length_range]
    norm_num

/-- C10: `loss_str` renders "-" when nothing was sent; renders the literal
"0.0%" whenever `sent - recv = 1` regardless of the true loss fraction
(witnessed by sent = 2, recv = 1, a 50 percent loss); and otherwise formats
`loss() = (sent - recv) / sent` as a percentage with one decimal place. -/
theorem claim_C10 :
    (∀ sent recv : ℕ, recv ≤ sent →
      (sent = 0 → (StatsSnapshot.mk sent recv).loss_str = "-") ∧
      (sent - recv = 1 → (StatsSnapshot.mk sent recv).loss_str = "0.0%") ∧
      (sent ≠ 0 → sent - recv ≠ 1 →
        (StatsSnapshot.mk sent recv).loss_str =
          fmtPercent1 (100 * (StatsSnapshot.mk sent recv).loss))) ∧
    (StatsSnapshot.mk 2 1).loss = 1 / 2 ∧
    (StatsSnapshot.mk 2 1).loss_str = "0.0%" := by
  refine ⟨fun sent recv _h => ?_, by norm_num [StatsSnapshot.loss], rfl⟩
  unfold StatsSnapshot.loss_str
  refine ⟨fun h0 => ?_, fun h1 => ?_, fun h0 h1 => ?_⟩
  · simp [h0]
  · have h0 : ¬sent = 0 := by omega
    simp [h0, h1]
  · simp [h0, h1]

theorem claim_C10_witness :
    (StatsSnapshot.mk 3 0).loss_str = fmtPercent1 (100 * (StatsSnapshot.mk 3 0).loss) :=
  (claim_C10.1 3 0 (by decide)).2.2 (by decide) (by decide)

/-! ### Shared facts about `update_ping_stats` -/

lemma update_ping_stats_sent (paused : Bool) (s : PingTargetInner)
    (res : Except SurgeError ℕ) (rec : PacketRecord) :
    (update_ping_stats paused s res rec).sent = s.sent := by
  unfold update_ping_stats
  cases res with
  | ok d => dsimp only; split_ifs <;> rfl
  | error e => dsimp only; split_ifs <;> rfl

lemma update_ping_stats_recv_err (paused : Bool) (s : PingTargetInner)
    (e : SurgeError) (rec : PacketRecord) :
    (update_ping_stats paused s (.error e) rec).recv = s.recv := by
  unfold update_ping_stats
  dsimp only
  split_ifs <;> rfl

lemma update_ping_stats_recv_ok (paused : Bool) (s : PingTargetInner)
    (d : ℕ) (rec : PacketRecord) :
    (update_ping_stats paused s (.ok d) rec).recv = s.recv + 1 := by
  unfold update_ping_stats
  dsimp only
  split_ifs <;> rfl

lemma update_ping_stats_recent_ok (paused : Bool) (s : PingTargetInner)
    (d : ℕ) (rec : PacketRecord) :
    (update_ping_stats paused s (.ok d) rec).recent = s.recent.push (rec.set_rtt d) := by
  unfold update_ping_stats
  dsimp only
  split_ifs <;> rfl

lemma update_ping_stats_recent_err (paused : Bool) (s : PingTargetInner)
    (e : SurgeError) (rec : PacketRecord) :
    (update_ping_stats paused s (.error e) rec).recent = s.recent.push rec := by
  unfold update_ping_stats
  dsimp only
  split_ifs <;> rfl

lemma update_ping_stats_rtts_ok (paused : Bool) (s : PingTargetInner)
    (d : ℕ) (rec : PacketRecord) :
    (update_ping_stats paused s (.ok d) rec).rtts = s.rtts.push ((d / 1000) % 2 ^ 32) := by
  unfold update_ping_stats
  dsimp only
  split_ifs <;> rfl

lemma update_ping_stats_rtts_err (paused : Bool) (s : PingTargetInner)
    (e : SurgeError) (rec : PacketRecord) :
    (update_ping_stats paused s (.error e) rec).rtts = s.rtts := by
  unfold update_ping_stats
  dsimp only
  split_ifs <;> rfl

/-- With the paused flag set, `update_ping_stats` always ends in `Paused`:
the result match never produces `Paused` itself, the override then fires,
and the classifier cascade is skipped because `Paused` is neither `Ok` nor
`Timeout`. -/
lemma update_ping_stats_paused (s : PingTargetInner) (res : Except SurgeError ℕ)
    (rec : PacketRecord) :
    (update_ping_stats true s res rec).status = PingStatus.paused := by
  cases res with
  | ok dur => simp [update_ping_stats]
  | error e =>
    cases e with
    | timeout =>
      by_cases h : 10 < s.sent ∧ s.recv = 0 <;>
        simp [update_ping_stats, timeout_status, h]
    | other msg => simp [update_ping_stats]

lemma is_laggy_getD (s : PingTargetInner) (n : ℕ) (t : ℚ) :
    ((s.is_laggy n t).toOption.getD false)
      = ((s.recent.mean (some n)).toOption.map
          (fun recent_mean =>
            decide (((s.rtts.mean.toOption).getD 0) * t < ((recent_mean / 1000 : ℕ) : ℚ)))).getD
          false := by
  unfold PingTargetInner.is_laggy
  cases (s.recent.mean (some n)) <;> rfl

/-- C5: the status type has a distinct `Paused` variant besides the eight
others, and `update_ping_stats` forces the status to `Paused` whenever the
target's paused flag is set, overriding every other status. -/
theorem claim_C5 :
    (∀ (s : PingTargetInner) (res : Except SurgeError ℕ) (rec : PacketRecord),
      (update_ping_stats true s res rec).status = PingStatus.paused) ∧
    (PingStatus.paused ≠ PingStatus.ok ∧ PingStatus.paused ≠ PingStatus.timeout ∧
     PingStatus.paused ≠ PingStatus.notReachable ∧ PingStatus.paused ≠ PingStatus.laggy ∧
     PingStatus.paused ≠ PingStatus.lossy ∧ PingStatus.paused ≠ PingStatus.flappy ∧
     PingStatus.paused ≠ PingStatus.none ∧
     ∀ msg, PingStatus.paused ≠ PingStatus.error msg) := by
  constructor
  · intro s res rec
    exact update_ping_stats_paused s res rec
  · refine ⟨by simp, by simp, by simp, by simp, by simp, by simp, by simp, fun msg => by simp⟩

/-- C3: on a timeout result the counters are untouched, and the timeout
arm yields `NotReachable` exactly when `sent > 10 ∧ recv == 0`, `Timeout`
otherwise; when not paused the `NotReachable` outcome survives the rest of
the function (the cascade does not run from it). -/
theorem claim_C3 (paused : Bool) (s : PingTargetInner) (rec : PacketRecord) :
    (update_ping_stats paused s (.error .timeout) rec).sent = s.sent ∧
    (update_ping_stats paused s (.error .timeout) rec).recv = s.recv ∧
    (timeout_status s.sent s.recv = PingStatus.notReachable ↔ 10 < s.sent ∧ s.recv = 0) ∧
    (¬(10 < s.sent ∧ s.recv = 0) → timeout_status s.sent s.recv = PingStatus.timeout) ∧
    (paused = false → 10 < s.sent → s.recv = 0 →
      (update_ping_stats paused s (.error .timeout) rec).status = PingStatus.notReachable) := by
  refine ⟨update_ping_stats_sent .., update_ping_stats_recv_err .., ?_, ?_, ?_⟩
  · constructor
    · intro hEq
      by_contra hc
      simp [timeout_status, hc] at hEq
    · intro hc
      simp [timeout_status, hc]
  · intro hc
    simp [timeout_status, hc]
  · intro hp h1 h2
    subst hp
    have ht : timeout_status s.sent s.recv = PingStatus.notReachable := by
      simp [timeout_status, h1, h2]
    unfold update_ping_stats
    dsimp only
    simp [ht]

theorem claim_C3_witness :
    (update_ping_stats false
        ⟨11, 0, LatencyWindow.new 3, PacketHistory.new 10, PingStatus.none⟩
        (.error .timeout) ⟨0, 0, Option.none⟩).status = PingStatus.notReachable :=
  (claim_C3 false ⟨11, 0, LatencyWindow.new 3, PacketHistory.new 10, PingStatus.none⟩
    ⟨0, 0, Option.none⟩).2.2.2.2 rfl (by decide) rfl

/-- C4: the classifier cascade runs only when the status after
reply/timeout/pause handling is `Ok` or `Timeout` (paused, transport-error
and not-reachable outcomes pass through unclassified), and when it runs it
evaluates Flappy (`recent_transitions(10) ≥ 5`), then Lossy
(`recent_losses(5)/5 ≥ 0.5`), then Laggy, in that order on the updated
state, the first holding condition deciding the final status and a failing
Laggy computation counting as not holding (`cascade_spec`). -/
theorem claim_C4 (paused : Bool) (s : PingTargetInner) (res : Except SurgeError ℕ)
    (rec : PacketRecord) :
    (paused = true → (update_ping_stats paused s res rec).status = PingStatus.paused) ∧
    (∀ msg, res = .error (.other msg) → paused = false →
      (update_ping_stats paused s res rec).status = PingStatus.error msg) ∧
    (res = .error .timeout → paused = false → 10 < s.sent ∧ s.recv = 0 →
      (update_ping_stats paused s res rec).status = PingStatus.notReachable) ∧
    (∀ d, res = .ok d → paused = false →
      (update_ping_stats paused s res rec).status =
        cascade_spec (update_ping_stats paused s res rec) PingStatus.ok) ∧
    (res = .error .timeout → paused = false → ¬(10 < s.sent ∧ s.recv = 0) →
      (update_ping_stats paused s res rec).status =
        cascade_spec (update_ping_stats paused s res rec) PingStatus.timeout) := by
  refine ⟨?_, ?_, ?_, ?_, ?_⟩
  · intro hp
    subst hp
    exact update_ping_stats_paused s res rec
  · intro msg hres hp
    subst hres hp
    simp [update_ping_stats]
  · intro hres hp hc
    subst hres hp
    have ht : timeout_status s.sent s.recv = PingStatus.notReachable := by
      simp [timeout_status, hc]
    unfold update_ping_stats
    dsimp only
    simp [ht]
  · intro d hres hp
    subst hres hp
    unfold cascade_spec laggy_spec update_ping_stats
    simp only [Bool.false_eq_true, false_and, if_false]
    simp only [true_or, if_true]
    simp only [apply_ite PingTargetInner.status, apply_ite PingTargetInner.recent,
      apply_ite PingTargetInner.rtts, ite_self]
    simp only [is_laggy_getD, PingTargetInner.is_flappy, PingTargetInner.is_lossy,
      decide_eq_true_eq]
    norm_num
  · intro hres hp hc
    subst hres hp
    have ht : timeout_status s.sent s.recv = PingStatus.timeout := by
      simp [timeout_status, hc]
    unfold cascade_spec laggy_spec update_ping_stats
    dsimp only
    simp only [ht]
    simp only [Bool.false_eq_true, false_and, if_false]
    simp only [or_true, if_true]
    simp only [apply_ite PingTargetInner.status, apply_ite PingTargetInner.recent,
      apply_ite PingTargetInner.rtts, ite_self]
    simp only [is_laggy_getD, PingTargetInner.is_flappy, PingTargetInner.is_lossy,
      decide_eq_true_eq]
    norm_num

theorem claim_C4_witness :
    (update_ping_stats false
        ⟨0, 0, LatencyWindow.new 3, PacketHistory.new 10, PingStatus.none⟩
        (.error (.other "network down")) ⟨0, 0, Option.none⟩).status =
      PingStatus.error "network down" :=
  (claim_C4 false ⟨0, 0, LatencyWindow.new 3, PacketHistory.new 10, PingStatus.none⟩
    (.error (.other "network down")) ⟨0, 0, Option.none⟩).2.1 "network down" rfl rfl

/-- C7: `PacketHistory::mean` equals the claim-side mean `specMean`:
`mean(None)` averages the RTTs of all RTT-bearing records, `mean(Some n)`
averages the RTTs carried by the last `n` records, and it errors exactly
on an empty history, on `n` exceeding the history length, and when no
considered record carries an RTT. -/
theorem claim_C7 (h : PacketHistory) (n : Option ℕ) :
    PacketHistory.mean h n = specMean h n := by
  unfold PacketHistory.mean specMean lastRecords
  rcases n with _ | k <;>
    simp only [List.isEmpty_iff, List.take_reverse, List.filterMap_reverse,
      List.sum_reverse, List.length_reverse, List.reverse_eq_nil_iff]

/-! ### The LatencyWindow development (claims C1 and C8)

The deque invariants are maintained through `push` and extracted at the
front; the ring-buffer content invariant supports `stdev_n`'s backward
scan. -/

lemma popBackWhile_sublist (p : α → Bool) (l : List α) : (popBackWhile p l).Sublist l := by
  have h := (List.dropWhile_sublist (l := l.reverse) p).reverse
  rwa [List.reverse_reverse] at h

lemma popBackWhile_decomp (p : α → Bool) (l : List α) :
    ∃ t, l = popBackWhile p l ++ t ∧ ∀ x ∈ t, p x = true := by
  refine ⟨(l.reverse.takeWhile p).reverse, ?_, ?_⟩
  · conv_lhs => rw [← List.reverse_reverse l, ← List.takeWhile_append_dropWhile p l.reverse]
    rw [List.reverse_append]
    rfl
  · intro x hx
    rw [List.mem_reverse] at hx
    exact List.mem_takeWhile_imp hx

lemma mem_popBackWhile_of_neg (p : α → Bool) (l : List α) (x : α)
    (hx : x ∈ l) (hpx : ¬p x = true) : x ∈ popBackWhile p l := by
  obtain ⟨t, hdecomp, ht⟩ := popBackWhile_decomp p l
  rw [hdecomp, List.mem_append] at hx
  rcases hx with h | h
  · exact h
  · exact absurd (ht x h) hpx

lemma head?_dropWhile_not (p : α → Bool) (l : List α) (x : α)
    (hx : (l.dropWhile p).head? = some x) : ¬p x = true := by
  induction l with
  | nil => simp [List.dropWhile] at hx
  | cons a t ih =>
    rw [List.dropWhile_cons] at hx
    by_cases hpa : p a = true
    · rw [if_pos hpa] at hx
      exact ih hx
    · rw [if_neg hpa] at hx
      simp only [List.head?_cons, Option.some_inj] at hx
      subst hx
      exact hpa

lemma getLast_popBackWhile (p : α → Bool) (l : List α) (h : popBackWhile p l ≠ []) :
    ¬p ((popBackWhile p l).getLast h) = true := by
  have h2 : (popBackWhile p l).getLast? = some ((popBackWhile p l).getLast h) :=
    List.getLast?_eq_getLast _ h
  unfold popBackWhile at h2
  rw [List.getLast?_reverse] at h2
  exact head?_dropWhile_not p l.reverse _ h2

lemma mem_dropWhile_idx_ge (c : ℕ) (q : List (ℕ × ℕ))
    (hs : q.Pairwise (fun a b => a.2 < b.2)) :
    ∀ x ∈ q.dropWhile (fun p => decide (p.2 < c)), c ≤ x.2 := by
  induction q with
  | nil => simp
  | cons a t ih =>
    rw [List.dropWhile_cons]
    rcases List.pairwise_cons.mp hs with ⟨ha, ht⟩
    by_cases hac : a.2 < c
    · rw [if_pos (by simpa using hac)]
      exact ih ht
    · rw [if_neg (by simpa using hac)]
      intro x hx
      rcases List.mem_cons.mp hx with rfl | hxt
      · omega
      · have := ha x hxt
        omega

lemma mem_dropWhile_of_idx_ge (c : ℕ) (q : List (ℕ × ℕ)) (x : ℕ × ℕ)
    (hx : x ∈ q) (hcx : c ≤ x.2) :
    x ∈ q.dropWhile (fun p => decide (p.2 < c)) := by
  induction q with
  | nil => cases hx
  | cons a t ih =>
    rw [List.dropWhile_cons]
    by_cases hac : a.2 < c
    · rw [if_pos (by simpa using hac)]
      rcases List.mem_cons.mp hx with rfl | hxt
      · omega
      · exact ih hxt
    · rw [if_neg (by simpa using hac)]
      exact hx

lemma minqInv_step (vs : List ℕ) (cap : ℕ) (hcap : 1 ≤ cap) (q : List (ℕ × ℕ)) (v : ℕ)
    (h : MinqInv vs cap q) :
    MinqInv (vs ++ [v]) cap
      (popBackWhile (fun p => decide (v < p.1))
        (q.dropWhile (fun p => decide (p.2 < vs.length - (cap - 1)))) ++ [(v, vs.length)]) := by
  set n := vs.length with hn
  set cutoff := n - (cap - 1) with hcut
  set q₁ := q.dropWhile (fun p => decide (p.2 < cutoff)) with hq₁
  set q₂ := popBackWhile (fun p => decide (v < p.1)) q₁ with hq₂
  have hgd1 : ∀ i < n, (vs ++ [v]).getD i 0 = vs.getD i 0 := fun i hi =>
    List.getD_append vs [v] 0 i hi
  have hgdn : (vs ++ [v]).getD n 0 = v := by
    rw [List.getD_append_right vs [v] 0 n le_rfl]
    simp
  have hlen : (vs ++ [v]).length = n + 1 := by simp [hn]
  have hsub : q₂.Sublist q :=
    (popBackWhile_sublist _ q₁).trans (List.dropWhile_sublist _)
  have hq₂q : ∀ x ∈ q₂, x ∈ q := fun x hx => hsub.mem hx
  have hq₂c : ∀ x ∈ q₂, cutoff ≤ x.2 := fun x hx =>
    mem_dropWhile_idx_ge cutoff q h.sorted x ((popBackWhile_sublist _ q₁).mem hx)
  have hq₂pw : q₂.Pairwise (fun a b => a.2 < b.2) := h.sorted.sublist hsub
  -- every surviving entry's value is at most the new value
  have hle : ∀ x ∈ q₂, x.1 ≤ v := by
    intro x hx
    have hne : q₂ ≠ [] := by
      intro he
      rw [he] at hx
      cases hx
    have hyp : ¬(decide (v < (q₂.getLast hne).1)) = true := getLast_popBackWhile _ _ hne
    have hyv : (q₂.getLast hne).1 ≤ v := by simpa using hyp
    have hymem : q₂.getLast hne ∈ q₂ := List.getLast_mem hne
    have hdecomp := List.dropLast_append_getLast hne
    have hx2 : x ∈ q₂.dropLast ++ [q₂.getLast hne] := by rw [hdecomp]; exact hx
    rcases List.mem_append.mp hx2 with hxd | hxy
    · have hpw2 : (q₂.dropLast ++ [q₂.getLast hne]).Pairwise (fun a b => a.2 < b.2) := by
        rw [hdecomp]; exact hq₂pw
      have hxly : x.2 < (q₂.getLast hne).2 :=
        (List.pairwise_append.mp hpw2).2.2 x hxd _ (by simp)
      have hyn : (q₂.getLast hne).2 < n := h.upper _ (hq₂q _ hymem)
      have hsm := h.suffmin x (hq₂q x hx) (q₂.getLast hne).2 hxly hyn
      rw [← h.value _ (hq₂q _ hymem)] at hsm
      omega
    · have : x = q₂.getLast hne := by simpa using hxy
      rw [this]
      exact hyv
  constructor
  · -- sorted
    rw [List.pairwise_append]
    refine ⟨hq₂pw, by simp, ?_⟩
    intro a ha b hb
    have : b = (v, n) := by simpa using hb
    rw [this]
    exact h.upper a (hq₂q a ha)
  · -- lower
    intro p hp
    rcases List.mem_append.mp hp with hp2 | hpn
    · have := hq₂c p hp2
      rw [hlen]
      omega
    · have : p = (v, n) := by simpa using hpn
      rw [this, hlen]
      simp
      omega
  · -- upper
    intro p hp
    rcases List.mem_append.mp hp with hp2 | hpn
    · have := h.upper p (hq₂q p hp2)
      rw [hlen]
      omega
    · have : p = (v, n) := by simpa using hpn
      rw [this, hlen]
      omega
  · -- value
    intro p hp
    rcases List.mem_append.mp hp with hp2 | hpn
    · rw [hgd1 p.2 (h.upper p (hq₂q p hp2))]
      exact h.value p (hq₂q p hp2)
    · have : p = (v, n) := by simpa using hpn
      rw [this]
      exact hgdn.symm
  · -- suffmin
    intro p hp j hj1 hj2
    rw [hlen] at hj2
    rcases List.mem_append.mp hp with hp2 | hpn
    · rcases Nat.lt_or_ge j n with hjn | hjn
      · rw [hgd1 j hjn]
        exact h.suffmin p (hq₂q p hp2) j hj1 hjn
      · have hjeq : j = n := by omega
        rw [hjeq, hgdn]
        exact hle p hp2
    · have : p = (v, n) := by simpa using hpn
      rw [this] at hj1
      omega
  · -- complete
    intro i hlow hhigh hsuff
    rw [hlen] at hhigh hlow
    rcases Nat.lt_or_ge i n with hin | hin
    · have hiv : (vs ++ [v]).getD i 0 = vs.getD i 0 := hgd1 i hin
      have hold : ∀ j, i < j → j < n → vs.getD i 0 ≤ vs.getD j 0 := by
        intro j h1 h2
        have := hsuff j h1 (by rw [hlen]; omega)
        rwa [hgd1 i hin, hgd1 j h2] at this
      have hmem : (vs.getD i 0, i) ∈ q := h.complete i (by omega) hin hold
      have hm1 : (vs.getD i 0, i) ∈ q₁ :=
        mem_dropWhile_of_idx_ge cutoff q _ hmem (by simp only [hcut]; omega)
      have hleqv : vs.getD i 0 ≤ v := by
        have := hsuff n hin (by rw [hlen]; omega)
        rwa [hgd1 i hin, hgdn] at this
      have hm2 : (vs.getD i 0, i) ∈ q₂ := by
        refine mem_popBackWhile_of_neg _ _ _ hm1 ?_
        simp only [decide_eq_true_eq]
        omega
      rw [hiv]
      exact List.mem_append_left _ hm2
    · have hieq : i = n := by omega
      rw [hieq, hgdn]
      exact List.mem_append_right _ (by simp)

lemma maxqInv_step (vs : List ℕ) (cap : ℕ) (hcap : 1 ≤ cap) (q : List (ℕ × ℕ)) (v : ℕ)
    (h : MaxqInv vs cap q) :
    MaxqInv (vs ++ [v]) cap
      (popBackWhile (fun p => decide (p.1 < v))
        (q.dropWhile (fun p => decide (p.2 < vs.length - (cap - 1)))) ++ [(v, vs.length)]) := by
  set n := vs.length with hn
  set cutoff := n - (cap - 1) with hcut
  set q₁ := q.dropWhile (fun p => decide (p.2 < cutoff)) with hq₁
  set q₂ := popBackWhile (fun p => decide (p.1 < v)) q₁ with hq₂
  have hgd1 : ∀ i < n, (vs ++ [v]).getD i 0 = vs.getD i 0 := fun i hi =>
    List.getD_append vs [v] 0 i hi
  have hgdn : (vs ++ [v]).getD n 0 = v := by
    rw [List.getD_append_right vs [v] 0 n le_rfl]
    simp
  have hlen : (vs ++ [v]).length = n + 1 := by simp [hn]
  have hsub : q₂.Sublist q :=
    (popBackWhile_sublist _ q₁).trans (List.dropWhile_sublist _)
  have hq₂q : ∀ x ∈ q₂, x ∈ q := fun x hx => hsub.mem hx
  have hq₂c : ∀ x ∈ q₂, cutoff ≤ x.2 := fun x hx =>
    mem_dropWhile_idx_ge cutoff q h.sorted x ((popBackWhile_sublist _ q₁).mem hx)
  have hq₂pw : q₂.Pairwise (fun a b => a.2 < b.2) := h.sorted.sublist hsub
  -- every surviving entry's value is at least the new value
  have hle : ∀ x ∈ q₂, v ≤ x.1 := by
    intro x hx
    have hne : q₂ ≠ [] := by
      intro he
      rw [he] at hx
      cases hx
    have hyp : ¬(decide ((q₂.getLast hne).1 < v)) = true := getLast_popBackWhile _ _ hne
    have hyv : v ≤ (q₂.getLast hne).1 := by simpa using hyp
    have hymem : q₂.getLast hne ∈ q₂ := List.getLast_mem hne
    have hdecomp := List.dropLast_append_getLast hne
    have hx2 : x ∈ q₂.dropLast ++ [q₂.getLast hne] := by rw [hdecomp]; exact hx
    rcases List.mem_append.mp hx2 with hxd | hxy
    · have hpw2 : (q₂.dropLast ++ [q₂.getLast hne]).Pairwise (fun a b => a.2 < b.2) := by
        rw [hdecomp]; exact hq₂pw
      have hxly : x.2 < (q₂.getLast hne).2 :=
        (List.pairwise_append.mp hpw2).2.2 x hxd _ (by simp)
      have hyn : (q₂.getLast hne).2 < n := h.upper _ (hq₂q _ hymem)
      have hsm := h.suffmax x (hq₂q x hx) (q₂.getLast hne).2 hxly hyn
      rw [← h.value _ (hq₂q _ hymem)] at hsm
      omega
    · have : x = q₂.getLast hne := by simpa using hxy
      rw [this]
      exact hyv
  constructor
  · rw [List.pairwise_append]
    refine ⟨hq₂pw, by simp, ?_⟩
    intro a ha b hb
    have : b = (v, n) := by simpa using hb
    rw [this]
    exact h.upper a (hq₂q a ha)
  · intro p hp
    rcases List.mem_append.mp hp with hp2 | hpn
    · have := hq₂c p hp2
      rw [hlen]
      omega
    · have : p = (v, n) := by simpa using hpn
      rw [this, hlen]
      simp
      omega
  · intro p hp
    rcases List.mem_append.mp hp with hp2 | hpn
    · have := h.upper p (hq₂q p hp2)
      rw [hlen]
      omega
    · have : p = (v, n) := by simpa using hpn
      rw [this, hlen]
      omega
  · intro p hp
    rcases List.mem_append.mp hp with hp2 | hpn
    · rw [hgd1 p.2 (h.upper p (hq₂q p hp2))]
      exact h.value p (hq₂q p hp2)
    · have : p = (v, n) := by simpa using hpn
      rw [this]
      exact hgdn.symm
  · intro p hp j hj1 hj2
    rw [hlen] at hj2
    rcases List.mem_append.mp hp with hp2 | hpn
    · rcases Nat.lt_or_ge j n with hjn | hjn
      · rw [hgd1 j hjn]
        exact h.suffmax p (hq₂q p hp2) j hj1 hjn
      · have hjeq : j = n := by omega
        rw [hjeq, hgdn]
        exact hle p hp2
    · have : p = (v, n) := by simpa using hpn
      rw [this] at hj1
      omega
  · intro i hlow hhigh hsuff
    rw [hlen] at hhigh hlow
    rcases Nat.lt_or_ge i n with hin | hin
    · have hiv : (vs ++ [v]).getD i 0 = vs.getD i 0 := hgd1 i hin
      have hold : ∀ j, i < j → j < n → vs.getD j 0 ≤ vs.getD i 0 := by
        intro j h1 h2
        have := hsuff j h1 (by rw [hlen]; omega)
        rwa [hgd1 i hin, hgd1 j h2] at this
      have hmem : (vs.getD i 0, i) ∈ q := h.complete i (by omega) hin hold
      have hm1 : (vs.getD i 0, i) ∈ q₁ :=
        mem_dropWhile_of_idx_ge cutoff q _ hmem (by simp only [hcut]; omega)
      have hleqv : v ≤ vs.getD i 0 := by
        have := hsuff n hin (by rw [hlen]; omega)
        rwa [hgd1 i hin, hgdn] at this
      have hm2 : (vs.getD i 0, i) ∈ q₂ := by
        refine mem_popBackWhile_of_neg _ _ _ hm1 ?_
        simp only [decide_eq_true_eq]
        omega
      rw [hiv]
      exact List.mem_append_left _ hm2
    · have hieq : i = n := by omega
      rw [hieq, hgdn]
      exact List.mem_append_right _ (by simp)

lemma push_fields (w : LatencyWindow) (v : ℕ) :
    (w.push v).cap = w.cap ∧
    (w.push v).index = w.index + 1 ∧
    (w.push v).len = (if w.len < w.cap then w.len + 1 else w.len) ∧
    (w.push v).head = (w.head + 1) % w.cap ∧
    (w.push v).buf = w.buf.set w.head v ∧
    (w.push v).sum =
      (if w.len < w.cap then w.sum + (v : ℚ)
       else w.sum + (v : ℚ) - (w.buf.getD w.head 0 : ℕ)) ∧
    (w.push v).sum_sq =
      (if w.len < w.cap then w.sum_sq + (v : ℚ) * v
       else w.sum_sq + (v : ℚ) * v - ((w.buf.getD w.head 0 : ℕ) : ℚ) * (w.buf.getD w.head 0 : ℕ)) ∧
    (w.push v).minq =
      popBackWhile (fun p => decide (v < p.1))
        (w.minq.dropWhile (fun p => decide (p.2 < w.index - (w.cap - 1)))) ++ [(v, w.index)] ∧
    (w.push v).maxq =
      popBackWhile (fun p => decide (p.1 < v))
        (w.maxq.dropWhile (fun p => decide (p.2 < w.index - (w.cap - 1)))) ++ [(v, w.index)] := by
  unfold LatencyWindow.push
  dsimp only
  split_ifs <;> exact ⟨rfl, rfl, rfl, rfl, rfl, rfl, rfl, rfl, rfl⟩

lemma qsum_append_singleton (l : List ℕ) (v : ℕ) : qsum (l ++ [v]) = qsum l + v := by
  unfold qsum
  rw [List.map_append, List.sum_append]
  simp

lemma qsumsq_append_singleton (l : List ℕ) (v : ℕ) :
    qsumsq (l ++ [v]) = qsumsq l + (v : ℚ) * v := by
  unfold qsumsq
  rw [List.map_append, List.sum_append]
  simp

lemma qsum_drop_succ (l : List ℕ) (k : ℕ) (hk : k < l.length) :
    qsum (l.drop k) = ((l.getD k 0 : ℕ) : ℚ) + qsum (l.drop (k + 1)) := by
  rw [List.drop_eq_getElem_cons hk, List.getD_eq_getElem l 0 hk]
  unfold qsum
  rw [List.map_cons, List.sum_cons]

lemma qsumsq_drop_succ (l : List ℕ) (k : ℕ) (hk : k < l.length) :
    qsumsq (l.drop k) =
      ((l.getD k 0 : ℕ) : ℚ) * (l.getD k 0 : ℕ) + qsumsq (l.drop (k + 1)) := by
  rw [List.drop_eq_getElem_cons hk, List.getD_eq_getElem l 0 hk]
  unfold qsumsq
  rw [List.map_cons, List.sum_cons]

lemma liveWindow_length (cap : ℕ) (vs : List ℕ) :
    (liveWindow cap vs).length = min vs.length cap := by
  unfold liveWindow
  rw [List.length_drop]
  omega

lemma winInv_push (cap₀ : ℕ) (vs : List ℕ) (w : LatencyWindow) (v : ℕ)
    (inv : WinInv cap₀ vs w) : WinInv cap₀ (vs ++ [v]) (w.push v) := by
  obtain ⟨hcap, hidx, hlen, hhead, hbuflen, hring, hsum, hsumsq, hminq, hmaxq⟩ := inv
  obtain ⟨pcap, pidx, plen, phead, pbuf, psum, psumsq, pminq, pmaxq⟩ := push_fields w v
  set e := max cap₀ 3 with he
  have he3 : 3 ≤ e := le_max_right _ _
  set n := vs.length with hn
  have hlen' : (vs ++ [v]).length = n + 1 := by simp [hn]
  have hgdn : (vs ++ [v]).getD n 0 = v := by
    rw [List.getD_append_right vs [v] 0 n le_rfl]
    simp
  refine ⟨?_, ?_, ?_, ?_, ?_, ?_, ?_, ?_, ?_, ?_⟩
  · rw [pcap, hcap]
  · rw [pidx, hidx, hlen']
  · rw [plen, hlen, hcap, hlen']
    split_ifs <;> omega
  · have h1e : 1 % e = 1 := Nat.mod_eq_of_lt (by omega)
    rw [phead, hhead, hcap, hlen', Nat.add_mod n 1 e, h1e]
  · rw [pbuf, List.length_set, hbuflen]
  · intro i hlow hhigh
    rw [hlen'] at hlow hhigh
    rw [pbuf, hhead]
    rcases Nat.lt_or_ge i n with hin | hin
    · -- an old live position: set at a different physical index
      have hne : ¬(n % e = i % e) := by
        intro heq
        have hmeq : i % e = n % e := heq.symm
        have hdvd : e ∣ n - i := (Nat.modEq_iff_dvd' (le_of_lt hin)).mp hmeq
        have hle := Nat.le_of_dvd (by omega) hdvd
        omega
      rw [List.getD_eq_getElem?_getD, List.getElem?_set, if_neg hne,
        ← List.getD_eq_getElem?_getD]
      rw [List.getD_append vs [v] 0 i hin]
      exact hring i (by omega) hin
    · have hieq : i = n := by omega
      subst hieq
      rw [hgdn]
      rw [List.getD_eq_getElem?_getD, List.getElem?_set, if_pos rfl,
        if_pos (by rw [hbuflen]; exact Nat.mod_lt _ (by omega))]
      rfl
  · -- running sum equals the window sum
    rw [psum, hsum, hcap, hlen]
    split_ifs with hc
    · have hne : n < e := by omega
      have h0 : n - e = 0 := by omega
      have h0' : n + 1 - e = 0 := by omega
      unfold liveWindow
      rw [hlen', h0, h0', List.drop_zero, List.drop_zero, qsum_append_singleton]
    · have hen : e ≤ n := by omega
      have hnn : 0 < n := by omega
      have hmod : (n - e) % e = n % e := by
        conv_rhs => rw [show n = n - e + e by omega]
        rw [Nat.add_mod_right]
      have hold : w.buf.getD (w.head) 0 = vs.getD (n - e) 0 := by
        rw [hhead, ← hmod]
        exact hring (n - e) le_rfl (by omega)
      unfold liveWindow
      rw [hlen']
      rw [List.drop_append_of_le_length (by omega : n + 1 - e ≤ vs.length)]
      rw [qsum_append_singleton]
      rw [qsum_drop_succ vs (n - e) (by omega), hold]
      have : n - e + 1 = n + 1 - e := by omega
      rw [this]
      ring
  · rw [psumsq, hsumsq, hcap, hlen]
    split_ifs with hc
    · have h0 : n - e = 0 := by omega
      have h0' : n + 1 - e = 0 := by omega
      unfold liveWindow
      rw [hlen', h0, h0', List.drop_zero, List.drop_zero, qsumsq_append_singleton]
    · have hen : e ≤ n := by omega
      have hmod : (n - e) % e = n % e := by
        conv_rhs => rw [show n = n - e + e by omega]
        rw [Nat.add_mod_right]
      have hold : w.buf.getD (w.head) 0 = vs.getD (n - e) 0 := by
        rw [hhead, ← hmod]
        exact hring (n - e) le_rfl (by omega)
      unfold liveWindow
      rw [hlen']
      rw [List.drop_append_of_le_length (by omega : n + 1 - e ≤ vs.length)]
      rw [qsumsq_append_singleton]
      rw [qsumsq_drop_succ vs (n - e) (by omega), hold]
      have : n - e + 1 = n + 1 - e := by omega
      rw [this]
      ring
  · rw [pminq, hidx, hcap]
    exact minqInv_step vs e (by omega) w.minq v hminq
  · rw [pmaxq, hidx, hcap]
    exact maxqInv_step vs e (by omega) w.maxq v hmaxq

lemma winInv_init (cap₀ : ℕ) : WinInv cap₀ [] (LatencyWindow.new cap₀) := by
  refine ⟨rfl, rfl, by simp [LatencyWindow.new], by simp [LatencyWindow.new],
    by simp [LatencyWindow.new, MIN_WINDOW_SIZE], by simp, ?_, ?_, ?_, ?_⟩
  · simp [LatencyWindow.new, liveWindow, qsum]
  · simp [LatencyWindow.new, liveWindow, qsumsq]
  · exact ⟨List.Pairwise.nil, by simp [LatencyWindow.new], by simp [LatencyWindow.new],
      by simp [LatencyWindow.new], by simp [LatencyWindow.new], by simp⟩
  · exact ⟨List.Pairwise.nil, by simp [LatencyWindow.new], by simp [LatencyWindow.new],
      by simp [LatencyWindow.new], by simp [LatencyWindow.new], by simp⟩

lemma pushAll_inv (cap₀ : ℕ) (vs : List ℕ) :
    WinInv cap₀ vs ((LatencyWindow.new cap₀).pushAll vs) := by
  induction vs using List.reverseRecOn with
  | nil => exact winInv_init cap₀
  | append_singleton vs v ih =>
    unfold LatencyWindow.pushAll at *
    rw [List.foldl_append, List.foldl_cons, List.foldl_nil]
    exact winInv_push cap₀ vs _ v ih

lemma foldl_min_le_init (xs : List ℕ) (x : ℕ) : xs.foldl min x ≤ x := by
  induction xs generalizing x with
  | nil => simp
  | cons y ys ih =>
    rw [List.foldl_cons]
    exact le_trans (ih _) (min_le_left _ _)

lemma foldl_min_le_mem (xs : List ℕ) (y : ℕ) (hy : y ∈ xs) :
    ∀ x, xs.foldl min x ≤ y := by
  induction xs with
  | nil => cases hy
  | cons z zs ih =>
    intro x
    rw [List.foldl_cons]
    rcases List.mem_cons.mp hy with rfl | hz
    · exact le_trans (foldl_min_le_init _ _) (min_le_right _ _)
    · exact ih hz _

lemma foldl_min_mem (xs : List ℕ) (x : ℕ) : xs.foldl min x = x ∨ xs.foldl min x ∈ xs := by
  induction xs generalizing x with
  | nil => left; rfl
  | cons y ys ih =>
    rw [List.foldl_cons]
    rcases ih (min x y) with h | h
    · rcases min_choice x y with hxy | hxy
      · left
        rw [h, hxy]
      · right
        rw [h, hxy]
        exact List.mem_cons_self _ _
    · right
      exact List.mem_cons_of_mem _ h

lemma minOf_mem (l : List ℕ) (hl : l ≠ []) : minOf l ∈ l := by
  match l with
  | x :: xs =>
    simp only [minOf]
    rcases foldl_min_mem xs x with h | h
    · rw [h]
      exact List.mem_cons_self _ _
    · exact List.mem_cons_of_mem _ h

lemma minOf_le (l : List ℕ) (y : ℕ) (hy : y ∈ l) : minOf l ≤ y := by
  match l with
  | x :: xs =>
    simp only [minOf]
    rcases List.mem_cons.mp hy with rfl | hz
    · exact foldl_min_le_init _ _
    · exact foldl_min_le_mem xs y hz x

lemma foldl_max_init_le (xs : List ℕ) (x : ℕ) : x ≤ xs.foldl max x := by
  induction xs generalizing x with
  | nil => simp
  | cons y ys ih =>
    rw [List.foldl_cons]
    exact le_trans (le_max_left _ _) (ih _)

lemma foldl_max_mem_le (xs : List ℕ) (y : ℕ) (hy : y ∈ xs) :
    ∀ x, y ≤ xs.foldl max x := by
  induction xs with
  | nil => cases hy
  | cons z zs ih =>
    intro x
    rw [List.foldl_cons]
    rcases List.mem_cons.mp hy with rfl | hz
    · exact le_trans (le_max_right _ _) (foldl_max_init_le _ _)
    · exact ih hz _

lemma foldl_max_mem (xs : List ℕ) (x : ℕ) : xs.foldl max x = x ∨ xs.foldl max x ∈ xs := by
  induction xs generalizing x with
  | nil => left; rfl
  | cons y ys ih =>
    rw [List.foldl_cons]
    rcases ih (max x y) with h | h
    · rcases max_choice x y with hxy | hxy
      · left
        rw [h, hxy]
      · right
        rw [h, hxy]
        exact List.mem_cons_self _ _
    · right
      exact List.mem_cons_of_mem _ h

lemma maxOf_mem (l : List ℕ) (hl : l ≠ []) : maxOf l ∈ l := by
  match l with
  | x :: xs =>
    simp only [maxOf]
    rcases foldl_max_mem xs x with h | h
    · rw [h]
      exact List.mem_cons_self _ _
    · exact List.mem_cons_of_mem _ h

lemma le_maxOf (l : List ℕ) (y : ℕ) (hy : y ∈ l) : y ≤ maxOf l := by
  match l with
  | x :: xs =>
    simp only [maxOf]
    rcases List.mem_cons.mp hy with rfl | hz
    · exact foldl_max_init_le _ _
    · exact foldl_max_mem_le xs y hz x

lemma liveWindow_getD_mem (cap : ℕ) (vs : List ℕ) (i : ℕ)
    (h1 : vs.length - cap ≤ i) (h2 : i < vs.length) :
    vs.getD i 0 ∈ liveWindow cap vs := by
  unfold liveWindow
  have hlt : i - (vs.length - cap) < (vs.drop (vs.length - cap)).length := by
    rw [List.length_drop]
    omega
  have hmem := List.getElem_mem hlt
  rw [List.getElem_drop] at hmem
  have heq : vs.length - cap + (i - (vs.length - cap)) = i := by omega
  simp only [heq] at hmem
  rw [List.getD_eq_getElem vs 0 h2]
  exact hmem

lemma mem_liveWindow (cap : ℕ) (vs : List ℕ) (x : ℕ) (hx : x ∈ liveWindow cap vs) :
    ∃ i, vs.length - cap ≤ i ∧ i < vs.length ∧ vs.getD i 0 = x := by
  unfold liveWindow at hx
  obtain ⟨k, hk, hkx⟩ := List.getElem_of_mem hx
  rw [List.getElem_drop] at hkx
  have hk' : k < vs.length - (vs.length - cap) := by
    have := hk
    rwa [List.length_drop] at this
  refine ⟨vs.length - cap + k, by omega, by omega, ?_⟩
  rw [List.getD_eq_getElem vs 0 (by omega)]
  exact hkx

lemma minqInv_front (vs : List ℕ) (cap : ℕ) (q : List (ℕ × ℕ))
    (h : MinqInv vs cap q) (hvs : vs ≠ []) (hcap : 1 ≤ cap) :
    (q.head?.map Prod.fst).getD 0 = minOf (liveWindow cap vs) := by
  have hn : 0 < vs.length := List.length_pos.mpr hvs
  have hwne : liveWindow cap vs ≠ [] := by
    apply List.ne_nil_of_length_pos
    rw [liveWindow_length]
    omega
  obtain ⟨m, hm1, hm2, hm3⟩ := mem_liveWindow cap vs _ (minOf_mem _ hwne)
  have hsuffm : ∀ j, m < j → j < vs.length → vs.getD m 0 ≤ vs.getD j 0 := by
    intro j hj1 hj2
    rw [hm3]
    exact minOf_le _ _ (liveWindow_getD_mem cap vs j (by omega) hj2)
  have hmemq : (vs.getD m 0, m) ∈ q := h.complete m hm1 hm2 hsuffm
  have hqne : q ≠ [] := by
    intro he
    rw [he] at hmemq
    cases hmemq
  obtain ⟨p₀, rest, hq⟩ := List.exists_cons_of_ne_nil hqne
  subst hq
  rw [List.head?_cons, Option.map_some', Option.getD_some]
  apply le_antisymm
  · rcases List.mem_cons.mp hmemq with heq | hrest
    · rw [← heq, ← hm3]
    · have hp₀m : p₀.2 < m := by
        have hpc := (List.pairwise_cons.mp h.sorted).1 _ hrest
        exact hpc
      have hsm := h.suffmin p₀ (List.mem_cons_self _ _) m hp₀m hm2
      rw [hm3] at hsm
      exact hsm
  · have hval := h.value p₀ (List.mem_cons_self _ _)
    rw [hval]
    exact minOf_le _ _ (liveWindow_getD_mem cap vs p₀.2
      (h.lower p₀ (List.mem_cons_self _ _)) (h.upper p₀ (List.mem_cons_self _ _)))

lemma maxqInv_front (vs : List ℕ) (cap : ℕ) (q : List (ℕ × ℕ))
    (h : MaxqInv vs cap q) (hvs : vs ≠ []) (hcap : 1 ≤ cap) :
    (q.head?.map Prod.fst).getD 0 = maxOf (liveWindow cap vs) := by
  have hn : 0 < vs.length := List.length_pos.mpr hvs
  have hwne : liveWindow cap vs ≠ [] := by
    apply List.ne_nil_of_length_pos
    rw [liveWindow_length]
    omega
  obtain ⟨m, hm1, hm2, hm3⟩ := mem_liveWindow cap vs _ (maxOf_mem _ hwne)
  have hsuffm : ∀ j, m < j → j < vs.length → vs.getD j 0 ≤ vs.getD m 0 := by
    intro j hj1 hj2
    rw [hm3]
    exact le_maxOf _ _ (liveWindow_getD_mem cap vs j (by omega) hj2)
  have hmemq : (vs.getD m 0, m) ∈ q := h.complete m hm1 hm2 hsuffm
  have hqne : q ≠ [] := by
    intro he
    rw [he] at hmemq
    cases hmemq
  obtain ⟨p₀, rest, hq⟩ := List.exists_cons_of_ne_nil hqne
  subst hq
  rw [List.head?_cons, Option.map_some', Option.getD_some]
  apply le_antisymm
  · have hval := h.value p₀ (List.mem_cons_self _ _)
    rw [hval]
    exact le_maxOf _ _ (liveWindow_getD_mem cap vs p₀.2
      (h.lower p₀ (List.mem_cons_self _ _)) (h.upper p₀ (List.mem_cons_self _ _)))
  · rcases List.mem_cons.mp hmemq with heq | hrest
    · rw [← heq, ← hm3]
    · have hp₀m : p₀.2 < m := by
        have hpc := (List.pairwise_cons.mp h.sorted).1 _ hrest
        exact hpc
      have hsm := h.suffmax p₀ (List.mem_cons_self _ _) m hp₀m hm2
      rw [hm3] at hsm
      exact hsm

/-- C1: for every requested capacity and every push sequence,
`mean_min_max()` errors on the empty window and otherwise returns exactly
the naive mean, minimum and maximum of the live window (the last
`min(pushes, cap)` values, with `cap` clamped to at least 3); moreover
every min-queue and max-queue entry references a live (never evicted)
value, so in particular the fronts, which `mean_min_max` returns, equal
the current window minimum and maximum. -/
theorem claim_C1 (cap : ℕ) (vs : List ℕ) :
    ((LatencyWindow.new cap).pushAll vs).mean_min_max =
      (match vs with
       | [] => Except.error "no samples"
       | _ :: _ =>
         Except.ok
           (qsum (liveWindow (max cap 3) vs) / ((liveWindow (max cap 3) vs).length : ℚ),
            minOf (liveWindow (max cap 3) vs), maxOf (liveWindow (max cap 3) vs))) ∧
    (∀ p ∈ ((LatencyWindow.new cap).pushAll vs).minq,
      vs.length - max cap 3 ≤ p.2 ∧ p.2 < vs.length ∧ p.1 = vs.getD p.2 0) ∧
    (∀ p ∈ ((LatencyWindow.new cap).pushAll vs).maxq,
      vs.length - max cap 3 ≤ p.2 ∧ p.2 < vs.length ∧ p.1 = vs.getD p.2 0) := by
  obtain ⟨hcap, hidx, hlen, hhead, hbuflen, hring, hsum, hsumsq, hminq, hmaxq⟩ :=
    pushAll_inv cap vs
  refine ⟨?_, fun p hp => ⟨hminq.lower p hp, hminq.upper p hp, hminq.value p hp⟩,
    fun p hp => ⟨hmaxq.lower p hp, hmaxq.upper p hp, hmaxq.value p hp⟩⟩
  cases vs with
  | nil => rfl
  | cons a t =>
    have hvs : (a :: t) ≠ [] := by simp
    have he1 : (1 : ℕ) ≤ max cap 3 := by omega
    unfold LatencyWindow.mean_min_max LatencyWindow.no_samples_check LatencyWindow.is_empty
    have hlz : (((LatencyWindow.new cap).pushAll (a :: t)).len == 0) = false := by
      rw [hlen]
      simp only [List.length_cons, beq_eq_false_iff_ne, ne_eq]
      omega
    rw [hlz]
    dsimp only
    rw [hsum, hlen]
    rw [minqInv_front _ _ _ hminq hvs he1, maxqInv_front _ _ _ hmaxq hvs he1]
    rw [liveWindow_length]
    simp

theorem claim_C1_witness :
    [5, 2].length - max 3 3 ≤ 1 ∧ 1 < [5, 2].length ∧ 2 = [5, 2].getD 1 0 :=
  (claim_C1 3 [5, 2]).2.1 (2, 1) (by decide)

lemma range_map_eq_rev (vs : List ℕ) (k : ℕ) (hk : k ≤ vs.length) (f : ℕ → ℚ)
    (F : ℕ → ℚ) (hF : ∀ i < k, F i = f (vs.getD (vs.length - 1 - i) 0)) :
    (List.range k).map F = ((vs.drop (vs.length - k)).map f).reverse := by
  have hdl : (vs.drop (vs.length - k)).length = k := by
    rw [List.length_drop]
    omega
  apply List.ext_getElem
  · simp only [List.length_map, List.length_range, List.length_reverse]
    omega
  · intro idx h1 h2
    have hidxk : idx < k := by
      simpa using h1
    rw [List.getElem_map, List.getElem_range]
    rw [List.getElem_reverse, List.getElem_map, List.getElem_drop]
    rw [hF idx hidxk]
    congr 1
    have hmaplen : ((vs.drop (vs.length - k)).map f).length = k := by
      rw [List.length_map, hdl]
    have hidx2 : vs.length - k + (((vs.drop (vs.length - k)).map f).length - 1 - idx)
        = vs.length - 1 - idx := by
      rw [hmaplen]
      omega
    rw [List.getD_eq_getElem vs 0 (by omega)]
    congr 1
    rw [hmaplen]
    omega

/-- C8: `stdev_n(k)` errors on an empty window; on a non-empty window it
returns 0 for `k = 1`, errors exactly when `k = 0` or `k` exceeds the
window length, and otherwise returns the sample standard deviation with
Bessel's correction (divisor `k - 1`) of the last `k` pushed values — the
embedding returns the radicand (the sample variance, the square of the
value the Rust function returns, whose final `sqrt` is irrational in
general); the NaN/infinity guard of the source cannot fire in the
exact-rational embedding. -/
theorem claim_C8 (cap k : ℕ) (vs : List ℕ) :
    ((LatencyWindow.new cap).pushAll vs).stdev_n k =
      (match vs with
       | [] => Except.error "no samples"
       | _ :: _ =>
         if k = 1 then Except.ok 0
         else if k < 1 ∨ min vs.length (max cap 3) < k then
           Except.error "invalid sample count"
         else Except.ok (sampleVar (vs.drop (vs.length - k)))) := by
  obtain ⟨hcap, hidx, hlen, hhead, hbuflen, hring, hsum, hsumsq, hminq, hmaxq⟩ :=
    pushAll_inv cap vs
  cases vs with
  | nil => rfl
  | cons a t =>
    set vs := a :: t with hvs
    set W := (LatencyWindow.new cap).pushAll vs with hW
    set e := max cap 3 with he
    have he3 : 3 ≤ e := le_max_right _ _
    set n := vs.length with hn
    have hn1 : 1 ≤ n := by simp [hn, hvs]
    unfold LatencyWindow.stdev_n LatencyWindow.no_samples_check LatencyWindow.is_empty
    have hlz : (W.len == 0) = false := by
      rw [hlen]
      simp only [beq_eq_false_iff_ne, ne_eq]
      omega
    rw [hlz]
    simp only [Bool.false_eq_true, if_false]
    rw [hlen]
    by_cases hk1 : k = 1
    · simp [hk1]
    · rw [if_neg hk1, if_neg hk1]
      by_cases hkr : k < 1 ∨ min n e < k
      · rw [if_pos hkr, if_pos hkr]
      · rw [if_neg hkr, if_neg hkr]
        have hkle : k ≤ min n e := by omega
        have hk2 : 2 ≤ k := by omega
        have hread : ∀ i < k,
            W.buf.getD ((W.head + W.cap - 1 - i) % W.cap) 0 = vs.getD (n - 1 - i) 0 := by
          intro i hi
          rw [hhead, hcap]
          have h1 : n % e + e - 1 - i = n % e + (e - 1 - i) := by omega
          rw [h1, Nat.mod_add_mod]
          have h3 : n + (e - 1 - i) = n - 1 - i + e := by omega
          rw [h3, Nat.add_mod_right]
          exact hring (n - 1 - i) (by omega) (by omega)
        have hsub_sum :
            ((List.range k).map (fun i =>
              ((W.buf.getD ((W.head + W.cap - 1 - i) % W.cap) 0 : ℕ) : ℚ))).sum
              = qsum (vs.drop (n - k)) := by
          rw [range_map_eq_rev vs k (by omega) (fun v => (Nat.cast v : ℚ)) _
            (fun i hi => by rw [hread i hi])]
          rw [List.sum_reverse]
          rfl
        rw [hsub_sum]
        have hdl : (vs.drop (n - k)).length = k := by
          rw [List.length_drop]
          omega
        have hsq :
            ((List.range k).map (fun i =>
              (((W.buf.getD ((W.head + W.cap - 1 - i) % W.cap) 0 : ℕ) : ℚ)
                - qsum (vs.drop (n - k)) / (k : ℚ)) ^ 2)).sum
              = ((vs.drop (n - k)).map
                  (fun v => (Nat.cast v - qsum (vs.drop (n - k)) / (k : ℚ)) ^ 2)).sum := by
          rw [range_map_eq_rev vs k (by omega)
            (fun v => (Nat.cast v - qsum (vs.drop (n - k)) / (k : ℚ)) ^ 2) _
            (fun i hi => by rw [hread i hi])]
          rw [List.sum_reverse]
        rw [hsq]
        unfold sampleVar
        rw [hdl]
        rfl

end MPing
